import Mathlib

/-!
Verification of the practice3 storage engine (engine.go, feature.go,
replica_registry.go): a replicated in-memory store of geospatial features
with an R-tree index, a per-origin vector clock, a line-oriented WAL and a
snapshot file.

The embedding is shallow: Go maps become association lists, the R-tree
becomes the multiset of its `(rectangle, id)` entries (tidwall/rtree
`Insert` adds one entry, `Delete` removes one exactly-matching entry),
file contents are carried in the engine state, and I/O success of a write
is an explicit boolean parameter.  A feature's geometry is abstracted by
its axis-aligned bounding rectangle, which is the only part of the
geometry the engine ever reads (`computeBoundsForRTree`).  The dynamic
cast `tx.Feature.ID.(string)` is modelled by an `Option`-valued coercion;
a `none` result of an operation models the run-time panic of a failed
cast.
-/

namespace Practice3

/-- Action of a transaction: `Upsert` or `Delete` (main.go). -/
inductive ActionType where
  | upsert : ActionType
  | delete : ActionType
deriving DecidableEq, Repr

/-- The dynamically typed `ID` field of a geojson feature: a string, some
non-string JSON value (modelled by a number), or absent (`nil`). -/
inductive FeatId where
  | str : String → FeatId
  | num : Int → FeatId
  | missing : FeatId
deriving DecidableEq, Repr

/-- The dynamic cast `feature.ID.(string)`: succeeds exactly on strings. -/
def FeatId.asString : FeatId → Option String
  | .str s => some s
  | _ => none

/-- Feature payload: the id and the axis-aligned bounding rectangle of the
geometry (the engine reads nothing else of the geometry). -/
structure GeoFeature where
  id : FeatId
  minX : Int
  minY : Int
  maxX : Int
  maxY : Int
deriving DecidableEq, Repr

/-- `computeBoundsForRTree` (engine.go): bottom-left and top-right corners. -/
def computeBoundsForRTree (f : GeoFeature) : (Int × Int) × (Int × Int) :=
  ((f.minX, f.minY), (f.maxX, f.maxY))

/-- Stored feature record (feature.go): origin name, origin LSN, payload. -/
structure Feature where
  name : String
  lsn : Nat
  feature : GeoFeature
deriving DecidableEq, Repr

/-- Transaction record (main.go): action, origin name, LSN, payload. -/
structure Transaction where
  action : ActionType
  name : String
  lsn : Nat
  feature : GeoFeature
deriving DecidableEq, Repr

/-- Go map update `m[k] = v`: replace in place, or add if absent. -/
def insertD : List (String × Feature) → String → Feature → List (String × Feature)
  | [], k, v => [(k, v)]
  | (k', v') :: rest, k, v =>
    if k' = k then (k, v) :: rest else (k', v') :: insertD rest k v

/-- Go map deletion `delete(m, k)`. -/
def eraseD : List (String × Feature) → String → List (String × Feature)
  | [], _ => []
  | (k', v') :: rest, k =>
    if k' = k then rest else (k', v') :: eraseD rest k

/-- Go map read `m[k]`. -/
def lookupD : List (String × Feature) → String → Option Feature
  | [], _ => none
  | (k', v') :: rest, k => if k' = k then some v' else lookupD rest k

/-- An R-tree is identified with the multiset of its entries. -/
abbrev RTree := List (((Int × Int) × (Int × Int)) × String)

/-- `rtree.Insert(min, max, id)` adds one entry. -/
def rtreeInsert (t : RTree) (b : (Int × Int) × (Int × Int)) (id : String) : RTree :=
  t ++ [(b, id)]

/-- `rtree.Delete(min, max, id)` removes one entry matching the rectangle
and the id exactly; absent entries are tolerated. -/
def rtreeDelete (t : RTree) (b : (Int × Int) × (Int × Int)) (id : String) : RTree :=
  match t with
  | [] => []
  | e :: rest => if e = (b, id) then rest else e :: rtreeDelete rest b id

/-- Engine state (engine.go): the registry of peer connections is the list
of peer names, and the contents of the snapshot and WAL files are carried
in the state (`none` models an absent file). -/
structure EngineSt where
  name : String
  peers : List String
  data : List (String × Feature)
  rTree : RTree
  vclock : String → Nat
  snapshot : Option (List (String × Feature))
  wal : Option (List String)

/-- `NewEngine`: empty map, empty R-tree, empty vector clock (a Go map
read of an absent origin yields 0). -/
def NewEngine (name : String) (peers : List String)
    (snapshot : Option (List (String × Feature)))
    (wal : Option (List String)) : EngineSt :=
  { name := name, peers := peers, data := [], rTree := [],
    vclock := fun _ => 0, snapshot := snapshot, wal := wal }

/-- `applyTransaction` (engine.go 150-166).  Dominance check first; then
the vector clock is advanced, the id is obtained by the dynamic cast
(`none` = panic), and the map and R-tree are mutated.  Returns the state
and the `applied` flag; the Go `error` component is always nil.  (In the
source the clock is written just before the cast; a failed cast panics
and kills the process, so folding the clock write into the mutated result
is unobservable.) -/
def applyTransaction (e : EngineSt) (tx : Transaction) : Option (EngineSt × Bool) :=
  if tx.lsn ≤ e.vclock tx.name then some (e, false)
  else
    match tx.feature.id.asString with
    | none => none
    | some id =>
      match tx.action with
      | .upsert => some ({ e with
          vclock := fun n => if n = tx.name then tx.lsn else e.vclock n,
          data := insertD e.data id ⟨tx.name, tx.lsn, tx.feature⟩,
          rTree := rtreeInsert e.rTree (computeBoundsForRTree tx.feature) id }, true)
      | .delete => some ({ e with
          vclock := fun n => if n = tx.name then tx.lsn else e.vclock n,
          data := eraseD e.data id,
          rTree := rtreeDelete e.rTree (computeBoundsForRTree tx.feature) id }, true)

/-! WAL serialisation.  `json.Marshal` of a `Transaction` produces one
JSON object per line; the model fixes a concrete JSON-shaped rendering of
the embedded record (object keys `action`, `name`, `lsn`, `feature`, the
feature with keys `id` and `bbox`) together with its parser, so that the
round trip is provable rather than assumed. -/

/-- Decimal digit to character. -/
def digitChar : Nat → Char
  | 0 => '0'
  | 1 => '1'
  | 2 => '2'
  | 3 => '3'
  | 4 => '4'
  | 5 => '5'
  | 6 => '6'
  | 7 => '7'
  | 8 => '8'
  | _ => '9'

/-- Character to decimal digit, `none` on non-digits. -/
def charVal (c : Char) : Option Nat :=
  if 48 ≤ c.toNat ∧ c.toNat ≤ 57 then some (c.toNat - 48) else none

/-- Decimal rendering, fuel-driven so that it is structurally recursive
(the fuel `n + 1` always suffices). -/
def natCharsAux : Nat → Nat → List Char
  | 0, _ => []
  | fuel + 1, n =>
    if n < 10 then [digitChar n]
    else natCharsAux fuel (n / 10) ++ [digitChar (n % 10)]

/-- Decimal rendering of a natural number, most significant digit first. -/
def natChars (n : Nat) : List Char :=
  natCharsAux (n + 1) n

/-- Decimal rendering of an integer. -/
def intChars (n : Int) : List Char :=
  if n < 0 then '-' :: natChars n.natAbs else natChars n.toNat

/-- Accumulating decimal value of a digit run, `none` on a non-digit. -/
def charsValAux (acc : Nat) : List Char → Option Nat
  | [] => some acc
  | c :: cs =>
    match charVal c with
    | none => none
    | some v => charsValAux (acc * 10 + v) cs

/-- Split a leading maximal run of decimal digits off a character list. -/
def splitDigits : List Char → List Char × List Char
  | [] => ([], [])
  | c :: rest =>
    if (charVal c).isSome then
      let p := splitDigits rest
      (c :: p.1, p.2)
    else ([], c :: rest)

/-- The input does not continue with a digit (used to delimit number
parsing in the round-trip lemmas). -/
def NotDigitHead : List Char → Prop
  | [] => True
  | c :: _ => charVal c = none

/-- Parse a leading nonempty digit run as a natural number. -/
def splitNat (s : List Char) : Option (Nat × List Char) :=
  if (splitDigits s).1.isEmpty then none
  else
    match charsValAux 0 (splitDigits s).1 with
    | none => none
    | some n => some (n, (splitDigits s).2)

/-- Parse a leading integer (optional minus sign, then digits). -/
def splitInt (s : List Char) : Option (Int × List Char) :=
  match s with
  | [] => none
  | c :: rest =>
    if c = '-' then (splitNat rest).map fun p => (-(p.1 : Int), p.2)
    else (splitNat (c :: rest)).map fun p => ((p.1 : Int), p.2)

/-- Consume an expected literal pad from the front of the input. -/
def dropStart : List Char → List Char → Option (List Char)
  | [], s => some s
  | _ :: _, [] => none
  | p :: ps, a :: as => if a = p then dropStart ps as else none

/-- Take characters up to (and consuming) the first occurrence of `c`. -/
def takeUntil (c : Char) : List Char → Option (List Char × List Char)
  | [] => none
  | a :: rest =>
    if a = c then some ([], rest)
    else (takeUntil c rest).map fun p => (a :: p.1, p.2)

/-- The double-quote character. -/
def qc : Char := '"'

/-- The comma character. -/
def cc : Char := ','

/-- Literal pad opening the transaction object up to the action value. -/
def pad1 : List Char := ['\x7b', qc, 'a', 'c', 't', 'i', 'o', 'n', qc, ':', qc]

/-- Literal pad between the action value and the name value. -/
def pad2 : List Char := [cc, qc, 'n', 'a', 'm', 'e', qc, ':']

/-- Literal pad between the name value and the lsn value. -/
def pad3 : List Char := [cc, qc, 'l', 's', 'n', qc, ':']

/-- Literal pad between the lsn value and the feature id value. -/
def pad4 : List Char := [cc, qc, 'f', 'e', 'a', 't', 'u', 'r', 'e', qc, ':', '\x7b', qc, 'i', 'd', qc, ':']

/-- Literal pad between the feature id and the bounding box. -/
def pad5 : List Char := [cc, qc, 'b', 'b', 'o', 'x', qc, ':', '[']

/-- Literal pad closing the bounding box, the feature and the transaction. -/
def padEnd : List Char := [']', '\x7d', '\x7d']

/-- JSON rendering of an action value. -/
def actionStr : ActionType → String
  | .upsert => "upsert"
  | .delete => "delete"

/-- Parse an action value. -/
def parseAction (s : List Char) : Option ActionType :=
  if s = ("upsert").toList then some .upsert
  else if s = ("delete").toList then some .delete
  else none

/-- JSON rendering of the dynamically typed feature id. -/
def encodeIdCh : FeatId → List Char
  | .str s => [qc] ++ s.toList ++ [qc]
  | .num n => intChars n
  | .missing => ['n', 'u', 'l', 'l']

/-- Parse a feature id value: quoted string, `null`, or number. -/
def parseId (s : List Char) : Option (FeatId × List Char) :=
  match s with
  | [] => none
  | c :: rest =>
    if c = qc then (takeUntil qc rest).map fun p => (FeatId.str (String.mk p.1), p.2)
    else if c = 'n' then (dropStart ['u', 'l', 'l'] rest).map fun r => (FeatId.missing, r)
    else (splitInt (c :: rest)).map fun p => (FeatId.num p.1, p.2)

/-- The marshalled WAL line of a transaction (as characters). -/
def encodeTxCh (tx : Transaction) : List Char :=
  pad1 ++ (actionStr tx.action).toList ++ [qc]
    ++ pad2 ++ [qc] ++ tx.name.toList ++ [qc]
    ++ pad3 ++ natChars tx.lsn
    ++ pad4 ++ encodeIdCh tx.feature.id
    ++ pad5 ++ intChars tx.feature.minX ++ [cc] ++ intChars tx.feature.minY
    ++ [cc] ++ intChars tx.feature.maxX ++ [cc] ++ intChars tx.feature.maxY
    ++ padEnd

/-- The marshalled WAL line of a transaction. -/
def encodeTx (tx : Transaction) : String :=
  String.mk (encodeTxCh tx)

/-- Parse the action, name and lsn fields of a WAL line. -/
def decodeMeta (s : List Char) : Option ((ActionType × String × Nat) × List Char) := do
  let s1 ← dropStart pad1 s
  let (a, s2) ← takeUntil qc s1
  let act ← parseAction a
  let s3 ← dropStart (pad2 ++ [qc]) s2
  let (nm, s4) ← takeUntil qc s3
  let s5 ← dropStart pad3 s4
  let (lsn, s6) ← splitNat s5
  some ((act, String.mk nm, lsn), s6)

/-- Parse the four bounding-box coordinates of a WAL line. -/
def decodeBox (s : List Char) : Option ((Int × Int × Int × Int) × List Char) := do
  let s1 ← dropStart pad5 s
  let (x1, s2) ← splitInt s1
  let s3 ← dropStart [cc] s2
  let (y1, s4) ← splitInt s3
  let s5 ← dropStart [cc] s4
  let (x2, s6) ← splitInt s5
  let s7 ← dropStart [cc] s6
  let (y2, s8) ← splitInt s7
  some ((x1, y1, x2, y2), s8)

/-- Unmarshal one WAL line (as characters). -/
def decodeTxCh (s : List Char) : Option Transaction := do
  let (m, s1) ← decodeMeta s
  let s2 ← dropStart pad4 s1
  let (fid, s3) ← parseId s2
  let (b, s4) ← decodeBox s3
  let s5 ← dropStart padEnd s4
  if s5.isEmpty then
    some ⟨m.1, m.2.1, m.2.2, ⟨fid, b.1, b.2.1, b.2.2.1, b.2.2.2⟩⟩
  else none

/-- Unmarshal one WAL line; `none` models `json.Unmarshal` failure. -/
def decodeTx (line : String) : Option Transaction :=
  decodeTxCh line.toList

/-- A string id contains no character that JSON string encoding would
escape; non-string ids are unconstrained. -/
def IdOk : FeatId → Prop
  | .str s => qc ∉ s.toList ∧ '\n' ∉ s.toList
  | .num _ => True
  | .missing => True

instance : (i : FeatId) → Decidable (IdOk i)
  | .str s => inferInstanceAs (Decidable (qc ∉ s.toList ∧ '\n' ∉ s.toList))
  | .num _ => inferInstanceAs (Decidable True)
  | .missing => inferInstanceAs (Decidable True)

/-- A transaction is well formed when its origin name and string id (if
any) contain no character that JSON string encoding would escape, so that
the marshalled line is a single line that parses back. -/
def WellFormedTx (tx : Transaction) : Prop :=
  qc ∉ tx.name.toList ∧ '\n' ∉ tx.name.toList ∧ IdOk tx.feature.id

instance (tx : Transaction) : Decidable (WellFormedTx tx) :=
  inferInstanceAs (Decidable (_ ∧ _ ∧ _))

/-- `ReplicaRegistry.Broadcast` (replica_registry.go 34-46): a transaction
whose origin differs from the registry's own name is sent to nobody;
otherwise it is written once to every registered connection.  The result
is the list of `(peer, transaction)` messages put on the wire. -/
def Broadcast (regName : String) (conns : List String) (tx : Transaction) :
    List (String × Transaction) :=
  if tx.name ≠ regName then [] else conns.map fun p => (p, tx)

/-- `saveTransactionToWAL` (engine.go 308-334): create the file when
absent, then append one marshalled line.  `walOk` tells whether the
open/write succeeds; on failure the file is unchanged and the error is
returned (`true` = non-nil error). -/
def saveTransactionToWAL (walOk : Bool) (wal : Option (List String))
    (tx : Transaction) : Option (List String) × Bool :=
  if walOk then (some ((wal.getD []) ++ [encodeTx tx]), false) else (wal, true)

/-- `applyTransactionAndSave` (engine.go 138-148): apply in memory, then
append to the WAL, then broadcast.  Result: new state, error flag, and the
messages broadcast.  `none` models the panic of the id cast. -/
def applyTransactionAndSave (walOk : Bool) (e : EngineSt) (tx : Transaction) :
    Option (EngineSt × Bool × List (String × Transaction)) :=
  match applyTransaction e tx with
  | none => none
  | some (e1, applied) =>
    if applied then
      let r := saveTransactionToWAL walOk e1.wal tx
      if r.2 then some ({ e1 with wal := r.1 }, true, [])
      else some ({ e1 with wal := r.1 }, false, Broadcast e1.name e1.peers tx)
    else some (e1, false, [])

/-- `saveSnapshot` (engine.go 288-306): marshal the map to the snapshot
file; `snapOk` tells whether the write succeeds. -/
def saveSnapshot (snapOk : Bool) (e : EngineSt) : EngineSt × Bool :=
  if snapOk then ({ e with snapshot := some e.data }, false) else (e, true)

/-- `clearWAL` (engine.go 336-343): opens the WAL with `O_RDWR|O_TRUNC`
and no create flag, so it fails when the file does not exist; otherwise
the file is truncated to empty. -/
def clearWAL (e : EngineSt) : EngineSt × Bool :=
  match e.wal with
  | none => (e, true)
  | some _ => ({ e with wal := some [] }, false)

/-- `makeSnapshot` (engine.go 186-191): save the snapshot, then truncate
the WAL; the first failure is returned. -/
def makeSnapshot (snapOk : Bool) (e : EngineSt) : EngineSt × Bool :=
  let r := saveSnapshot snapOk e
  if r.2 then (r.1, true) else clearWAL r.1

/-- `loadSnapshot` (engine.go 224-241): a missing file is not an error;
otherwise the map is unmarshalled into the (fresh, empty) data map. -/
def loadSnapshotM (e : EngineSt) : EngineSt :=
  match e.snapshot with
  | none => e
  | some d => { e with data := d }

/-- `loadWAL` (engine.go 243-272): a missing file yields the empty list;
lines that fail to unmarshal are skipped. -/
def loadWAL : Option (List String) → List Transaction
  | none => []
  | some lines => lines.filterMap decodeTx

/-- `updateRTree` (engine.go 176-179): insert the feature's bounding
rectangle keyed by the dynamically cast id (`none` = panic). -/
def updateRTree (e : EngineSt) (f : GeoFeature) : Option EngineSt :=
  (f.id.asString).map fun id =>
    { e with rTree := rtreeInsert e.rTree (computeBoundsForRTree f) id }

/-- `restoreRTree` (engine.go 280-284): insert every stored feature. -/
def restoreRTree (e : EngineSt) : Option EngineSt :=
  e.data.foldlM (fun acc p => updateRTree acc p.2.feature) e

/-- `applyWAL` (engine.go 274-278): replay each loaded transaction
through `applyTransaction`, ignoring the applied flag. -/
def applyWAL (e : EngineSt) (wal : List Transaction) : Option EngineSt :=
  wal.foldlM (fun acc tx => (applyTransaction acc tx).map Prod.fst) e

/-- Insert a transaction into a list sorted by ascending LSN. -/
def insertByLsn (t : Transaction) : List Transaction → List Transaction
  | [] => [t]
  | s :: rest => if t.lsn ≤ s.lsn then t :: s :: rest else s :: insertByLsn t rest

/-- `sort.Slice(txs, func(i, j) .. Lsn < Lsn ..)`: a comparison sort by
ascending LSN (modelled by insertion sort; ties are ordered arbitrarily,
as with the unstable library sort). -/
def sortByLsn : List Transaction → List Transaction
  | [] => []
  | t :: rest => insertByLsn t (sortByLsn rest)

/-- The synthetic Upsert transaction built from a stored feature by
`broadcastAllData` (engine.go 210). -/
def synthTx (p : String × Feature) : Transaction :=
  ⟨ActionType.upsert, p.2.name, p.2.lsn, p.2.feature⟩

/-- `broadcastAllData` (engine.go 207-220): build one synthetic Upsert per
stored feature, sort ascending by LSN, and hand each to `Broadcast`.
Returns the list of transactions passed to `Broadcast` (in order) and the
messages actually sent. -/
def broadcastAllData (e : EngineSt) : List Transaction × List (String × Transaction) :=
  let txs := sortByLsn (e.data.map synthTx)
  (txs, txs.flatMap fun tx => Broadcast e.name e.peers tx)

/-- The state part of `Start` (engine.go 47-55): load the snapshot,
rebuild the R-tree, load and replay the WAL.  `none` models a panic
during the rebuild or the replay. -/
def startState (name : String) (peers : List String)
    (snapshot : Option (List (String × Feature)))
    (wal : Option (List String)) : Option EngineSt :=
  let e1 := loadSnapshotM (NewEngine name peers snapshot wal)
  (restoreRTree e1).bind fun e2 => applyWAL e2 (loadWAL e2.wal)

/-- `Start` up to entering the command loop: recovery, then the catch-up
broadcast of the whole data map.  Returns the recovered state, the
transactions handed to `Broadcast`, and the messages sent. -/
def start (name : String) (peers : List String)
    (snapshot : Option (List (String × Feature)))
    (wal : Option (List String)) :
    Option (EngineSt × List Transaction × List (String × Transaction)) :=
  (startState name peers snapshot wal).map fun e3 =>
    (e3, (broadcastAllData e3).1, (broadcastAllData e3).2)

/-! Invariants named by the specification, and concrete states used by
the witnesses and counterexamples below. -/

/-- The R-tree entry that corresponds to a stored feature: its bounding
rectangle keyed by its map key. -/
def entryOf (p : String × Feature) : ((Int × Int) × (Int × Int)) × String :=
  (computeBoundsForRTree p.2.feature, p.1)

/-- Map/R-tree correspondence: the R-tree is, as a multiset, exactly one
entry per stored feature, keyed by the feature's id and carrying its
current bounding rectangle. -/
def InvC2 (e : EngineSt) : Prop :=
  List.Perm e.rTree (e.data.map entryOf)

/-- The data map binds each key at most once (true of a Go map). -/
def KeysND (e : EngineSt) : Prop :=
  (e.data.map Prod.fst).Nodup

/-- Every stored feature's payload id is the string it is keyed by. -/
def WellKeyed (d : List (String × Feature)) : Prop :=
  ∀ p ∈ d, p.2.feature.id.asString = some p.1

/-- Vector-clock invariant: every stored feature's LSN is dominated by
the clock entry of its origin. -/
def VInv (e : EngineSt) : Prop :=
  ∀ p ∈ e.data, p.2.lsn ≤ e.vclock p.2.name

instance (e : EngineSt) : Decidable (InvC2 e) :=
  inferInstanceAs (Decidable (List.Perm _ _))

instance (e : EngineSt) : Decidable (KeysND e) :=
  inferInstanceAs (Decidable (List.Nodup _))

instance (d : List (String × Feature)) : Decidable (WellKeyed d) :=
  inferInstanceAs (Decidable (∀ p ∈ d, p.2.feature.id.asString = some p.1))

instance (e : EngineSt) : Decidable (VInv e) :=
  inferInstanceAs (Decidable (∀ p ∈ e.data, p.2.lsn ≤ e.vclock p.2.name))

/-- State reached by `applyTransaction` (the input state on a panic). -/
def applySt (e : EngineSt) (tx : Transaction) : EngineSt :=
  match applyTransaction e tx with
  | some r => r.1
  | none => e

/-- State reached by `applyTransactionAndSave` (input state on a panic). -/
def applyAndSaveSt (walOk : Bool) (e : EngineSt) (tx : Transaction) : EngineSt :=
  match applyTransactionAndSave walOk e tx with
  | some r => r.1
  | none => e

/-- State reached by `startState` (the fresh engine on a panic). -/
def startSt (name : String) (peers : List String)
    (snapshot : Option (List (String × Feature)))
    (wal : Option (List String)) : EngineSt :=
  match startState name peers snapshot wal with
  | some e => e
  | none => NewEngine name peers snapshot wal

/-- A small feature payload with string id `a`. -/
def gfA : GeoFeature := ⟨FeatId.str "a", 0, 0, 1, 1⟩

/-- The same id `a` with a different bounding rectangle. -/
def gfA2 : GeoFeature := ⟨FeatId.str "a", 2, 2, 3, 3⟩

/-- A feature payload with string id `b`. -/
def gfB : GeoFeature := ⟨FeatId.str "b", 4, 4, 5, 5⟩

/-- A feature payload whose id field is absent. -/
def gfBad : GeoFeature := ⟨FeatId.missing, 0, 0, 1, 1⟩

def c1e0 : EngineSt := NewEngine "n1" [] none none
def c1tx : Transaction := ⟨ActionType.upsert, "n1", 1, gfA⟩
def c1e1 : EngineSt := applyAndSaveSt false c1e0 c1tx
def c1we0 : EngineSt := NewEngine "w1" [] none none
def c1wtx : Transaction := ⟨ActionType.upsert, "w1", 1, gfA⟩
def c1we1 : EngineSt := applySt c1we0 c1wtx

def c2e0 : EngineSt := NewEngine "n2" [] none none
def c2tx1 : Transaction := ⟨ActionType.upsert, "n2", 1, gfA⟩
def c2tx2 : Transaction := ⟨ActionType.upsert, "n2", 2, gfA2⟩
def c2s1 : EngineSt := applySt c2e0 c2tx1
def c2s2 : EngineSt := applySt c2s1 c2tx2
def c2we0 : EngineSt := NewEngine "w2" [] none none
def c2wtx : Transaction := ⟨ActionType.upsert, "w2", 1, gfB⟩
def c2w1 : EngineSt := applySt c2we0 c2wtx

def c3snap : List (String × Feature) := [("a", ⟨"n3", 2, gfA⟩)]
def c3e : EngineSt := startSt "m3" [] (some c3snap) none
def c3we : EngineSt := startSt "w3" [] none none

def c4e0 : EngineSt := NewEngine "n4" [] none none
def c4tx : Transaction := ⟨ActionType.upsert, "n4", 1, gfA⟩
def c4e1 : EngineSt := applyAndSaveSt true c4e0 c4tx

def c5tx : Transaction := ⟨ActionType.upsert, "n5", 1, gfA⟩
def c5e : EngineSt := applyAndSaveSt true (NewEngine "n5" [] none none) c5tx
def c5e1 : EngineSt := (makeSnapshot true c5e).1
def c5e2 : EngineSt := startSt "n5" [] c5e1.snapshot c5e1.wal

def c6e : EngineSt := NewEngine "self6" ["p1", "p2"] none none
def c6tx : Transaction := ⟨ActionType.upsert, "self6", 1, gfA⟩
def c6ftx : Transaction := ⟨ActionType.upsert, "other6", 5, gfA⟩
def c6r : EngineSt × Bool × List (String × Transaction) :=
  match applyTransactionAndSave true c6e c6ftx with
  | some r => r
  | none => (c6e, true, [])

def c7tx : Transaction := ⟨ActionType.upsert, "n7", 3, ⟨FeatId.str "a7", 0, 1, 2, 3⟩⟩

def c8snap : List (String × Feature) :=
  [("a", ⟨"n8", 2, gfA⟩), ("b", ⟨"n8", 1, gfB⟩)]
def c8res : EngineSt × List Transaction × List (String × Transaction) :=
  match start "n8" ["q8"] (some c8snap) none with
  | some r => r
  | none => (NewEngine "n8" [] none none, [], [])

def c9e : EngineSt := NewEngine "n9" [] none none
def c9tx : Transaction := ⟨ActionType.upsert, "n9", 1, gfBad⟩
def c9we : EngineSt := NewEngine "w9" [] none none
def c9wtx : Transaction := ⟨ActionType.upsert, "w9", 1, gfA⟩

def c10e : EngineSt := NewEngine "nA" [] none none

/-! Helper lemmas about the apply path. -/

theorem applyTransaction_dominated {e : EngineSt} {tx : Transaction}
    (h : tx.lsn ≤ e.vclock tx.name) : applyTransaction e tx = some (e, false) := by
  unfold applyTransaction
  rw [if_pos h]

theorem applyTransaction_le {e : EngineSt} {tx : Transaction} {e' : EngineSt} {b : Bool}
    (h : applyTransaction e tx = some (e', b)) : tx.lsn ≤ e'.vclock tx.name := by
  unfold applyTransaction at h
  split at h
  · next hle =>
    obtain ⟨rfl, rfl⟩ : e = e' ∧ false = b := by simpa using h
    exact hle
  · split at h
    · exact absurd h (by simp)
    · split at h <;>
      · obtain ⟨he, rfl⟩ : _ ∧ true = b := by simpa using h
        rw [← he]
        simp

theorem applyTransaction_frame {e : EngineSt} {tx : Transaction} {e' : EngineSt} {b : Bool}
    (h : applyTransaction e tx = some (e', b)) :
    e'.name = e.name ∧ e'.peers = e.peers ∧ e'.snapshot = e.snapshot ∧ e'.wal = e.wal := by
  unfold applyTransaction at h
  split at h
  · obtain ⟨rfl, rfl⟩ : e = e' ∧ false = b := by simpa using h
    exact ⟨rfl, rfl, rfl, rfl⟩
  · split at h
    · exact absurd h (by simp)
    · split at h <;>
      · obtain ⟨he, rfl⟩ : _ ∧ true = b := by simpa using h
        rw [← he]
        exact ⟨rfl, rfl, rfl, rfl⟩

/-- C10: if the snapshot write succeeds but the WAL file does not exist,
the Snapshot operation returns an error even though the snapshot file was
written, because `clearWAL` opens the WAL path without a create flag. -/
theorem C10_snapshot_missing_wal (e : EngineSt) (h : e.wal = none) :
    makeSnapshot true e = ({ e with snapshot := some e.data }, true) := by
  unfold makeSnapshot saveSnapshot clearWAL
  simp [h]

theorem C10_snapshot_missing_wal_witness :
    makeSnapshot true c10e = ({ c10e with snapshot := some c10e.data }, true) :=
  C10_snapshot_missing_wal c10e rfl

/-- C9: a dominant transaction with a string payload id passes the
dynamic cast and the apply path completes, while a dominant transaction
whose id is absent hits the failing cast (`none` models the panic); the
engine does not re-validate the id. -/
theorem C9_id_cast :
    (∀ (e : EngineSt) (tx : Transaction), e.vclock tx.name < tx.lsn →
      (tx.feature.id.asString).isSome → (applyTransaction e tx).isSome) ∧
      applyTransaction c9e c9tx = none := by
  constructor
  · intro e tx hdom hid
    unfold applyTransaction
    rw [if_neg (by omega)]
    cases hs : tx.feature.id.asString with
    | none => rw [hs] at hid; simp at hid
    | some id => cases tx.action <;> simp [hs]
  · rfl

theorem C9_id_cast_witness : (applyTransaction c9we c9wtx).isSome :=
  C9_id_cast.1 c9we c9wtx (by decide) (by decide)

/-- C1 (amended): when the WAL append fails, the operation does return an
error and nothing is broadcast, but the in-memory state (data map, R-tree,
vector clock) has already been mutated by the dominant transaction; only
the WAL file itself is unchanged. -/
theorem C1_wal_failure_state (e : EngineSt) (tx : Transaction) (e1 : EngineSt)
    (h : applyTransaction e tx = some (e1, true)) :
    applyTransactionAndSave false e tx = some (e1, true, []) := by
  unfold applyTransactionAndSave
  rw [h]
  rfl

theorem C1_wal_failure_state_witness :
    applyTransactionAndSave false c1we0 c1wtx = some (c1we1, true, []) :=
  C1_wal_failure_state c1we0 c1wtx c1we1 rfl

/-- C1 counterexample: on a fresh engine, an Upsert whose WAL append
fails returns an error, yet the data map, the R-tree and the vector clock
have all been mutated — the claim that the in-memory state is unchanged
is false of the code. -/
theorem C1_counterexample :
    applyTransactionAndSave false c1e0 c1tx = some (c1e1, true, []) ∧
      c1e1.data ≠ c1e0.data ∧ c1e1.rTree ≠ c1e0.rTree ∧
      c1e1.vclock "n1" ≠ c1e0.vclock "n1" :=
  ⟨rfl, by decide, by decide, by decide⟩

/-- C4: applying a transaction twice has the effect of applying it once:
whatever the first application returned, the second returns Ok, leaves
the state (map, R-tree, clock, WAL) exactly as it was and broadcasts
nothing, because after the first application `tx.lsn ≤ V[tx.origin]`. -/
theorem C4_apply_twice (w1 w2 : Bool) (e : EngineSt) (tx : Transaction)
    (e' : EngineSt) (err : Bool) (sent : List (String × Transaction))
    (h : applyTransactionAndSave w1 e tx = some (e', err, sent)) :
    applyTransactionAndSave w2 e' tx = some (e', false, []) ∧
      tx.lsn ≤ e'.vclock tx.name := by
  have hle : tx.lsn ≤ e'.vclock tx.name := by
    unfold applyTransactionAndSave at h
    cases ha : applyTransaction e tx with
    | none => rw [ha] at h; exact absurd h (by simp)
    | some p =>
      obtain ⟨e1, b⟩ := p
      have h1 := applyTransaction_le ha
      rw [ha] at h
      cases b with
      | false =>
        simp at h
        obtain ⟨rfl, -, -⟩ := h
        exact h1
      | true =>
        simp only [if_true] at h
        split at h <;>
        · simp at h
          obtain ⟨he, -, -⟩ := h
          rw [← he]
          simpa using h1
  refine ⟨?_, hle⟩
  unfold applyTransactionAndSave
  rw [applyTransaction_dominated hle]
  rfl

theorem C4_apply_twice_witness :
    applyTransactionAndSave true c4e1 c4tx = some (c4e1, false, []) ∧
      c4tx.lsn ≤ c4e1.vclock c4tx.name :=
  C4_apply_twice true true c4e0 c4tx c4e1 false [] rfl

/-- The broadcast filter, own-origin case (replica_registry.go 34-40). -/
theorem Broadcast_self (self : String) (conns : List String) (tx : Transaction)
    (h : tx.name = self) : Broadcast self conns tx = conns.map fun p => (p, tx) := by
  unfold Broadcast
  simp [h]

/-- The broadcast filter, foreign-origin case (replica_registry.go 35-37). -/
theorem Broadcast_other (self : String) (conns : List String) (tx : Transaction)
    (h : tx.name ≠ self) : Broadcast self conns tx = [] := by
  unfold Broadcast
  simp [h]

theorem count_map_pair (conns : List String) (tx : Transaction) (p : String) :
    ((conns.map fun q => (q, tx)).count (p, tx)) = conns.count p := by
  induction conns with
  | nil => rfl
  | cons q rest ih => simp [List.count_cons, ih, Prod.ext_iff]

/-- C6: a transaction whose origin is the node's own name is sent to
every registered peer sink exactly once; a transaction with a foreign
origin is sent to no sink, so an ApplyForeign through the apply path
never causes any broadcast. -/
theorem C6_broadcast_authority :
    (∀ (self : String) (conns : List String) (tx : Transaction),
        tx.name = self → Broadcast self conns tx = conns.map fun p => (p, tx)) ∧
    (∀ (self : String) (conns : List String) (tx : Transaction) (p : String),
        tx.name = self → conns.Nodup → p ∈ conns →
        (Broadcast self conns tx).count (p, tx) = 1) ∧
    (∀ (self : String) (conns : List String) (tx : Transaction),
        tx.name ≠ self → Broadcast self conns tx = []) ∧
    (∀ (w : Bool) (e : EngineSt) (tx : Transaction)
        (r : EngineSt × Bool × List (String × Transaction)),
        tx.name ≠ e.name → applyTransactionAndSave w e tx = some r → r.2.2 = []) := by
  refine ⟨Broadcast_self, ?_, Broadcast_other, ?_⟩
  · intro self conns tx p h hnd hp
    rw [Broadcast_self self conns tx h, count_map_pair]
    exact List.count_eq_one_of_mem hnd hp
  · intro w e tx r hne h
    unfold applyTransactionAndSave at h
    cases ha : applyTransaction e tx with
    | none => rw [ha] at h; exact absurd h (by simp)
    | some q =>
      obtain ⟨e1, b⟩ := q
      have hname := (applyTransaction_frame ha).1
      rw [ha] at h
      cases b with
      | false =>
        simp at h
        subst h
        rfl
      | true =>
        simp only [if_true] at h
        split at h
        · simp at h
          subst h
          rfl
        · simp at h
          subst h
          exact Broadcast_other e1.name e1.peers tx (by rw [hname]; exact hne)

theorem C6_broadcast_authority_witness :
    Broadcast "self6" ["p1", "p2"] c6tx = [("p1", c6tx), ("p2", c6tx)] ∧
      (Broadcast "self6" ["p1", "p2"] c6tx).count ("p1", c6tx) = 1 ∧
      Broadcast "self6" ["p1", "p2"] c6ftx = [] ∧ c6r.2.2 = [] :=
  ⟨C6_broadcast_authority.1 "self6" ["p1", "p2"] c6tx rfl,
   C6_broadcast_authority.2.1 "self6" ["p1", "p2"] c6tx "p1" rfl (by decide) (by decide),
   C6_broadcast_authority.2.2.1 "self6" ["p1", "p2"] c6ftx (by decide),
   C6_broadcast_authority.2.2.2 true c6e c6ftx c6r (by decide) rfl⟩

theorem mem_insertD {d : List (String × Feature)} {k : String} {v : Feature}
    {p : String × Feature} (h : p ∈ insertD d k v) : p = (k, v) ∨ p ∈ d := by
  induction d with
  | nil => simpa [insertD] using h
  | cons q rest ih =>
    unfold insertD at h
    split at h
    · rcases List.mem_cons.mp h with h | h
      · exact Or.inl h
      · exact Or.inr (List.mem_cons_of_mem q h)
    · rcases List.mem_cons.mp h with h | h
      · exact Or.inr (h ▸ List.mem_cons_self q rest)
      · rcases ih h with h | h
        · exact Or.inl h
        · exact Or.inr (List.mem_cons_of_mem q h)

theorem mem_eraseD {d : List (String × Feature)} {k : String}
    {p : String × Feature} (h : p ∈ eraseD d k) : p ∈ d := by
  induction d with
  | nil => simp [eraseD] at h
  | cons q rest ih =>
    unfold eraseD at h
    split at h
    · exact List.mem_cons_of_mem q h
    · rcases List.mem_cons.mp h with h | h
      · exact h ▸ List.mem_cons_self q rest
      · exact List.mem_cons_of_mem q (ih h)

theorem vinv_apply {e : EngineSt} {tx : Transaction} {r : EngineSt × Bool}
    (hv : VInv e) (h : applyTransaction e tx = some r) : VInv r.1 := by
  unfold applyTransaction at h
  split at h
  · obtain rfl : (e, false) = r := by simpa using h
    exact hv
  · next hgt =>
    split at h
    · exact absurd h (by simp)
    · split at h <;> obtain rfl : _ = r := by simpa using h
      · -- upsert
        intro p hp
        rcases mem_insertD hp with rfl | hp
        · simp
        · have := hv p hp
          simp only []
          split
          · next heq => rw [heq] at this; omega
          · exact this
      · -- delete
        intro p hp
        have := hv p (mem_eraseD hp)
        simp only []
        split
        · next heq => rw [heq] at this; omega
        · exact this

theorem vinv_applyWAL {l : List Transaction} {e e' : EngineSt}
    (hv : VInv e) (h : applyWAL e l = some e') : VInv e' := by
  induction l generalizing e with
  | nil =>
    obtain rfl : e = e' := by simpa [applyWAL] using h
    exact hv
  | cons tx rest ih =>
    unfold applyWAL at h ih
    rw [List.foldlM_cons] at h
    cases ha : (applyTransaction e tx).map Prod.fst with
    | none => rw [ha] at h; exact absurd h (by simp)
    | some e1 =>
      rw [ha] at h
      cases hq : applyTransaction e tx with
      | none => rw [hq] at ha; exact absurd ha (by simp)
      | some q =>
        have he1 : q.1 = e1 := by rw [hq] at ha; simpa using ha
        exact ih (he1 ▸ vinv_apply hv hq) h

/-- C3 (amended): the vector-clock invariant `V[F.origin] ≥ F.lsn` holds
of a fresh engine, is preserved by every applied transaction, and holds
after a Start that finds no snapshot file (WAL-only recovery).  It does
NOT survive a Start that loads a non-empty snapshot, because the clock is
not rebuilt from the snapshot (see the counterexample). -/
theorem C3_vclock_invariant :
    (∀ (name : String) (peers : List String) s w, VInv (NewEngine name peers s w)) ∧
    (∀ (e : EngineSt) (tx : Transaction) (r : EngineSt × Bool),
        VInv e → applyTransaction e tx = some r → VInv r.1) ∧
    (∀ (name : String) (peers : List String) (w : Option (List String)) (e' : EngineSt),
        startState name peers none w = some e' → VInv e') := by
  have hinit : ∀ (name : String) (peers : List String) s w,
      VInv (NewEngine name peers s w) := by
    intro _ _ _ _ p hp
    simp [NewEngine] at hp
  refine ⟨hinit, fun e tx r => vinv_apply, ?_⟩
  intro name peers w e' h
  rw [show startState name peers none w
      = applyWAL (NewEngine name peers none w) (loadWAL w) from rfl] at h
  exact vinv_applyWAL (hinit name peers none w) h

theorem C3_vclock_invariant_witness : VInv c3we :=
  C3_vclock_invariant.2.2 "w3" [] none c3we rfl

/-- C3 counterexample: restarting from a snapshot holding a feature with
LSN 2 yields a reachable post-Start state whose vector clock is still
zero for that origin, so `V[F.origin] ≥ F.lsn` fails. -/
theorem C3_counterexample :
    startState "m3" [] (some c3snap) none = some c3e ∧ ¬ VInv c3e :=
  ⟨rfl, by decide⟩

theorem updateRTree_frame {e : EngineSt} {f : GeoFeature} {e' : EngineSt}
    (h : updateRTree e f = some e') :
    e'.data = e.data ∧ e'.vclock = e.vclock ∧ e'.wal = e.wal := by
  unfold updateRTree at h
  cases hs : f.id.asString with
  | none => rw [hs] at h; exact absurd h (by simp)
  | some id =>
    rw [hs] at h
    obtain rfl : _ = e' := by simpa using h
    exact ⟨rfl, rfl, rfl⟩

theorem fold_update_frame : ∀ (d : List (String × Feature)) (e e' : EngineSt),
    List.foldlM (fun acc p => updateRTree acc p.2.feature) e d = some e' →
    e'.data = e.data ∧ e'.vclock = e.vclock ∧ e'.wal = e.wal := by
  intro d
  induction d with
  | nil =>
    intro e e' h
    obtain rfl : e = e' := by simpa using h
    exact ⟨rfl, rfl, rfl⟩
  | cons q rest ih =>
    intro e e' h
    rw [List.foldlM_cons] at h
    cases hu : updateRTree e q.2.feature with
    | none => rw [hu] at h; exact absurd h (by simp)
    | some e1 =>
      rw [hu] at h
      obtain ⟨h1, h2, h3⟩ := updateRTree_frame hu
      obtain ⟨g1, g2, g3⟩ := ih e1 e' h
      exact ⟨g1.trans h1, g2.trans h2, g3.trans h3⟩

/-- C5 (amended): after a successful Snapshot the WAL file is empty and
the snapshot file holds the whole data map; a fresh engine restarted from
these files reproduces the same data map, but the vector clock is NOT
reproduced — the restarted clock is identically zero, because nothing
rebuilds it from the snapshot. -/
theorem C5_snapshot_restart (e e' e2 : EngineSt)
    (h1 : makeSnapshot true e = (e', false))
    (h2 : startState e.name e.peers e'.snapshot e'.wal = some e2) :
    e'.wal = some [] ∧ e'.snapshot = some e.data ∧ e2.data = e.data ∧
      ∀ n, e2.vclock n = 0 := by
  unfold makeSnapshot saveSnapshot clearWAL at h1
  simp only [if_true, if_false, Bool.false_eq_true, ite_false, ite_true] at h1
  split at h1
  · simp at h1
  · have hE : ({ e with snapshot := some e.data, wal := some [] } : EngineSt) = e' :=
      congrArg Prod.fst h1
    subst hE
    refine ⟨rfl, rfl, ?_⟩
    rw [show startState e.name e.peers (some e.data) (some [])
        = (restoreRTree ({ NewEngine e.name e.peers (some e.data) (some [])
            with data := e.data })).bind
          (fun x => applyWAL x (loadWAL x.wal)) from rfl] at h2
    cases hr : restoreRTree ({ NewEngine e.name e.peers (some e.data) (some [])
        with data := e.data }) with
    | none => rw [hr] at h2; exact absurd h2 (by simp)
    | some e3 =>
      rw [hr] at h2
      simp only [Option.some_bind] at h2
      unfold restoreRTree at hr
      obtain ⟨hd, hv, hw⟩ := fold_update_frame _ _ _ hr
      have hd' : e3.data = e.data := hd
      have hv' : e3.vclock = fun _ => 0 := hv
      have hw' : e3.wal = some [] := hw
      rw [hw'] at h2
      obtain rfl : e3 = e2 := by simpa [applyWAL, loadWAL] using h2
      refine ⟨hd', ?_⟩
      intro n
      rw [hv']

theorem C5_snapshot_restart_witness :
    c5e1.wal = some [] ∧ c5e1.snapshot = some c5e.data ∧ c5e2.data = c5e.data ∧
      ∀ n, c5e2.vclock n = 0 :=
  C5_snapshot_restart c5e c5e1 c5e2 rfl rfl

/-- C5 counterexample: a successful Snapshot after one local Upsert, then
a restart from the produced files: the data map survives but the vector
clock does not — the original engine had `V["n5"] = 1`, the restarted one
has `V["n5"] = 0`, refuting "reproduces the same vector clock". -/
theorem C5_counterexample :
    makeSnapshot true c5e = (c5e1, false) ∧
      startState c5e.name c5e.peers c5e1.snapshot c5e1.wal = some c5e2 ∧
      c5e.vclock "n5" = 1 ∧ c5e2.vclock "n5" = 0 :=
  ⟨rfl, rfl, by decide, by decide⟩

theorem lookupD_none_key {d : List (String × Feature)} {k : String}
    (h : lookupD d k = none) : k ∉ d.map Prod.fst := by
  induction d with
  | nil => simp
  | cons q rest ih =>
    obtain ⟨k', v'⟩ := q
    unfold lookupD at h
    by_cases hk : k' = k
    · rw [if_pos hk] at h; simp at h
    · rw [if_neg hk] at h
      simp only [List.map_cons, List.mem_cons]
      rintro (h1 | hm)
      · exact hk h1.symm
      · exact ih h hm

theorem insertD_fresh {d : List (String × Feature)} {k : String} (v : Feature)
    (h : lookupD d k = none) : insertD d k v = d ++ [(k, v)] := by
  induction d with
  | nil => rfl
  | cons q rest ih =>
    obtain ⟨k', v'⟩ := q
    unfold lookupD at h
    by_cases hk : k' = k
    · rw [if_pos hk] at h; simp at h
    · rw [if_neg hk] at h
      unfold insertD
      rw [if_neg hk, ih h]
      rfl

theorem eraseD_none {d : List (String × Feature)} {k : String}
    (h : lookupD d k = none) : eraseD d k = d := by
  induction d with
  | nil => rfl
  | cons q rest ih =>
    obtain ⟨k', v'⟩ := q
    unfold lookupD at h
    by_cases hk : k' = k
    · rw [if_pos hk] at h; simp at h
    · rw [if_neg hk] at h
      unfold eraseD
      rw [if_neg hk, ih h]

theorem rtreeDelete_not_mem {t : RTree} {b : (Int × Int) × (Int × Int)} {id : String}
    (h : (b, id) ∉ t) : rtreeDelete t b id = t := by
  induction t with
  | nil => rfl
  | cons x rest ih =>
    unfold rtreeDelete
    rw [if_neg (fun hxe => h (List.mem_cons.mpr (Or.inl hxe.symm))),
      ih (fun hm => h (List.mem_cons_of_mem x hm))]

theorem rtreeDelete_perm {t1 t2 : RTree} (h : List.Perm t1 t2)
    (b : (Int × Int) × (Int × Int)) (id : String) :
    List.Perm (rtreeDelete t1 b id) (rtreeDelete t2 b id) := by
  induction h with
  | nil => exact List.Perm.refl _
  | cons x hrest ih =>
    unfold rtreeDelete
    by_cases hx : x = (b, id)
    · simpa [hx] using hrest
    · simpa [hx] using ih.cons x
  | swap x y l =>
    unfold rtreeDelete
    by_cases hy : y = (b, id) <;> by_cases hx : x = (b, id)
    · simp only [if_pos hx, if_pos hy]
      rw [hx, hy]
    · simp only [if_pos hy, if_neg hx]
      unfold rtreeDelete
      simp only [if_pos hy]
      exact List.Perm.refl _
    · simp only [if_neg hy, if_pos hx]
      unfold rtreeDelete
      simp only [if_pos hx]
      exact List.Perm.refl _
    · simp only [if_neg hy, if_neg hx]
      unfold rtreeDelete
      simp only [if_neg hy, if_neg hx]
      exact List.Perm.swap x y (rtreeDelete l b id)
  | trans _ _ ih1 ih2 => exact ih1.trans ih2

theorem entry_key_mem {d : List (String × Feature)}
    {b : (Int × Int) × (Int × Int)} {k : String}
    (h : (b, k) ∈ d.map entryOf) : k ∈ d.map Prod.fst := by
  simp only [List.mem_map] at h ⊢
  obtain ⟨p, hp, he⟩ := h
  exact ⟨p, hp, congrArg Prod.snd he⟩

theorem eraseD_sublist (d : List (String × Feature)) (k : String) :
    List.Sublist (eraseD d k) d := by
  induction d with
  | nil => simp [eraseD]
  | cons q rest ih =>
    unfold eraseD
    split
    · exact List.sublist_cons_self q rest
    · exact List.Sublist.cons₂ q ih

theorem map_entry_eraseD : ∀ {d : List (String × Feature)} {k : String} {F : Feature},
    (d.map Prod.fst).Nodup → lookupD d k = some F →
    (eraseD d k).map entryOf
      = rtreeDelete (d.map entryOf) (computeBoundsForRTree F.feature) k := by
  intro d
  induction d with
  | nil => intro k F _ h; simp [lookupD] at h
  | cons q rest ih =>
    intro k F hnd h
    obtain ⟨k', v'⟩ := q
    unfold lookupD at h
    unfold eraseD
    by_cases hk : k' = k
    · rw [if_pos hk] at h
      have hvF : v' = F := by simpa using h
      rw [if_pos hk]
      subst hk
      subst hvF
      simp only [List.map_cons]
      unfold rtreeDelete
      rw [if_pos (show entryOf (k', v') = (computeBoundsForRTree v'.feature, k') from rfl)]
    · rw [if_neg hk] at h
      rw [if_neg hk]
      simp only [List.map_cons]
      unfold rtreeDelete
      rw [if_neg (by simp [entryOf, Prod.ext_iff, hk]),
        ih (by simpa using (List.nodup_cons.mp (by simpa using hnd)).2) h]

theorem fold_update_rtree : ∀ (d : List (String × Feature)) (e : EngineSt),
    WellKeyed d →
    List.foldlM (fun acc p => updateRTree acc p.2.feature) e d
      = some { e with rTree := e.rTree ++ d.map entryOf } := by
  intro d
  induction d with
  | nil =>
    intro e _
    rw [List.map_nil, List.append_nil]
    rfl
  | cons p rest ih =>
    intro e hwk
    rw [List.foldlM_cons]
    have hid : p.2.feature.id.asString = some p.1 := hwk p (List.mem_cons_self p rest)
    rw [show updateRTree e p.2.feature = some { e with
        rTree := rtreeInsert e.rTree (computeBoundsForRTree p.2.feature) p.1 } from by
      unfold updateRTree
      rw [hid]
      rfl]
    simp only [Option.bind_eq_bind, Option.some_bind]
    rw [ih _ (fun q hq => hwk q (List.mem_cons_of_mem p hq))]
    simp only [rtreeInsert, List.append_assoc, List.singleton_append, List.map_cons]
    rfl

/-- C2 (amended): the one-to-one map/R-tree correspondence is preserved
by Upserts of ids not already present, by Deletes whose supplied payload
has the bounding rectangle under which the id was indexed, and it is
established by the recovery rebuild into an empty R-tree.  An Upsert of
an id already present breaks it by inserting a second entry for that id
without removing the stale one (see the counterexample). -/
theorem C2_rtree_correspondence :
    (∀ (e : EngineSt) (tx : Transaction) (e' : EngineSt) (id : String),
        KeysND e → InvC2 e →
        tx.feature.id.asString = some id →
        applyTransaction e tx = some (e', true) →
        (tx.action = ActionType.upsert → lookupD e.data id = none) →
        (tx.action = ActionType.delete → ∀ F, lookupD e.data id = some F →
            computeBoundsForRTree F.feature = computeBoundsForRTree tx.feature) →
        InvC2 e' ∧ KeysND e') ∧
    (∀ (e e' : EngineSt), e.rTree = [] → WellKeyed e.data →
        restoreRTree e = some e' →
        e'.data = e.data ∧ InvC2 e' ∧ (KeysND e → KeysND e')) := by
  constructor
  · intro e tx e' id hnd hinv hid happ hfresh hdel
    unfold applyTransaction at happ
    split at happ
    · simp at happ
    · rw [hid] at happ
      cases hact : tx.action with
      | upsert =>
        rw [hact] at happ
        obtain rfl : _ = e' := by simpa using happ
        have hfr := hfresh hact
        constructor
        · show List.Perm (e.rTree ++ [(computeBoundsForRTree tx.feature, id)])
            (List.map entryOf (insertD e.data id ⟨tx.name, tx.lsn, tx.feature⟩))
          rw [insertD_fresh _ hfr, List.map_append]
          simp only [List.map_cons, List.map_nil]
          exact hinv.append_right _
        · show (List.map Prod.fst (insertD e.data id ⟨tx.name, tx.lsn, tx.feature⟩)).Nodup
          rw [insertD_fresh _ hfr, List.map_append]
          simp only [List.map_cons, List.map_nil]
          refine List.Nodup.append hnd (by simp) ?_
          intro a ha hb
          simp only [List.mem_singleton] at hb
          subst hb
          exact lookupD_none_key hfr ha
      | delete =>
        rw [hact] at happ
        obtain rfl : _ = e' := by simpa using happ
        cases hlk : lookupD e.data id with
        | none =>
          have hnk := lookupD_none_key hlk
          constructor
          · show List.Perm (rtreeDelete e.rTree (computeBoundsForRTree tx.feature) id)
              (List.map entryOf (eraseD e.data id))
            rw [rtreeDelete_not_mem
              (fun hm => hnk (entry_key_mem (hinv.mem_iff.mp hm))), eraseD_none hlk]
            exact hinv
          · show (List.map Prod.fst (eraseD e.data id)).Nodup
            rw [eraseD_none hlk]
            exact hnd
        | some F =>
          have hb := hdel hact F hlk
          constructor
          · show List.Perm (rtreeDelete e.rTree (computeBoundsForRTree tx.feature) id)
              (List.map entryOf (eraseD e.data id))
            rw [map_entry_eraseD hnd hlk, hb]
            exact rtreeDelete_perm hinv _ _
          · exact List.Nodup.sublist ((eraseD_sublist e.data id).map Prod.fst) hnd
  · intro e e' hrt hwk h
    unfold restoreRTree at h
    rw [fold_update_rtree e.data e hwk, hrt] at h
    obtain rfl : _ = e' := by simpa using h
    refine ⟨rfl, ?_, fun hk => hk⟩
    unfold InvC2
    simp

theorem C2_rtree_correspondence_witness : InvC2 c2w1 ∧ KeysND c2w1 :=
  C2_rtree_correspondence.1 c2we0 c2wtx c2w1 "b" (by decide) (by decide) rfl rfl
    (fun _ => rfl) (fun h => absurd h (by decide))

/-- C2 counterexample: from a fresh engine, Upsert id `a` then Upsert id
`a` again with a new rectangle and a higher LSN.  Both applications
succeed, the invariant holds after the first, but after the second the
R-tree holds two entries keyed `a` (the stale rectangle was never
removed), so the claimed one-to-one correspondence fails. -/
theorem C2_counterexample :
    applyTransaction c2e0 c2tx1 = some (c2s1, true) ∧
      applyTransaction c2s1 c2tx2 = some (c2s2, true) ∧
      InvC2 c2s1 ∧ ¬ InvC2 c2s2 :=
  ⟨rfl, rfl, by decide, by decide⟩

theorem mem_insertByLsn {t : Transaction} {l : List Transaction} {x : Transaction}
    (h : x ∈ insertByLsn t l) : x = t ∨ x ∈ l := by
  induction l with
  | nil => simpa [insertByLsn] using h
  | cons s rest ih =>
    unfold insertByLsn at h
    split at h
    · exact (List.mem_cons.mp h).imp id id
    · rcases List.mem_cons.mp h with h | h
      · exact Or.inr (h ▸ List.mem_cons_self s rest)
      · rcases ih h with h | h
        · exact Or.inl h
        · exact Or.inr (List.mem_cons_of_mem s h)

theorem insertByLsn_perm (t : Transaction) (l : List Transaction) :
    List.Perm (insertByLsn t l) (t :: l) := by
  induction l with
  | nil => exact List.Perm.refl _
  | cons s rest ih =>
    unfold insertByLsn
    split
    · exact List.Perm.refl _
    · exact (ih.cons s).trans (List.Perm.swap t s rest)

theorem sortByLsn_perm (l : List Transaction) : List.Perm (sortByLsn l) l := by
  induction l with
  | nil => exact List.Perm.refl _
  | cons t rest ih => exact (insertByLsn_perm t (sortByLsn rest)).trans (ih.cons t)

theorem insertByLsn_pairwise {t : Transaction} {l : List Transaction}
    (h : l.Pairwise fun a b => a.lsn ≤ b.lsn) :
    (insertByLsn t l).Pairwise fun a b => a.lsn ≤ b.lsn := by
  induction l with
  | nil => simp [insertByLsn]
  | cons s rest ih =>
    obtain ⟨hs, hrest⟩ := List.pairwise_cons.mp h
    unfold insertByLsn
    split
    · next hle =>
      refine List.pairwise_cons.mpr ⟨?_, h⟩
      intro b hb
      rcases List.mem_cons.mp hb with rfl | hb
      · exact hle
      · exact le_trans hle (hs b hb)
    · next hgt =>
      refine List.pairwise_cons.mpr ⟨?_, ih hrest⟩
      intro b hb
      rcases mem_insertByLsn hb with rfl | hb
      · omega
      · exact hs b hb

theorem sortByLsn_pairwise (l : List Transaction) :
    (sortByLsn l).Pairwise fun a b => a.lsn ≤ b.lsn := by
  induction l with
  | nil => simp [sortByLsn]
  | cons t rest ih => exact insertByLsn_pairwise ih

/-- C8: on Start, after recovery and after the peer sinks are opened, the
engine hands `Broadcast` one synthetic Upsert per stored feature, carrying
that feature's origin and LSN, in ascending LSN order, before the command
loop runs: the call list is a permutation of the map's synthetic
transactions, it is sorted by LSN, and the wire messages are exactly the
broadcasts of the calls in that order. -/
theorem C8_catchup_broadcast (name : String) (peers : List String)
    (snapshot : Option (List (String × Feature))) (wal : Option (List String))
    (e : EngineSt) (calls : List Transaction) (sent : List (String × Transaction))
    (h : start name peers snapshot wal = some (e, calls, sent)) :
    List.Perm calls (e.data.map synthTx) ∧
      calls.Pairwise (fun a b => a.lsn ≤ b.lsn) ∧
      sent = calls.flatMap fun tx => Broadcast e.name e.peers tx := by
  unfold start at h
  cases hs : startState name peers snapshot wal with
  | none => rw [hs] at h; exact absurd h (by simp)
  | some e3 =>
    rw [hs] at h
    obtain ⟨rfl, hbc⟩ : e3 = e ∧ broadcastAllData e3 = (calls, sent) := by
      simpa using h
    obtain ⟨rfl, rfl⟩ :
        (broadcastAllData e3).1 = calls ∧ (broadcastAllData e3).2 = sent :=
      ⟨congrArg Prod.fst hbc, congrArg Prod.snd hbc⟩
    exact ⟨sortByLsn_perm _, sortByLsn_pairwise _, rfl⟩

theorem C8_catchup_broadcast_witness :
    List.Perm c8res.2.1 (c8res.1.data.map synthTx) ∧
      c8res.2.1.Pairwise (fun a b => a.lsn ≤ b.lsn) ∧
      c8res.2.2 = c8res.2.1.flatMap fun tx => Broadcast c8res.1.name c8res.1.peers tx :=
  C8_catchup_broadcast "n8" ["q8"] (some c8snap) none c8res.1 c8res.2.1 c8res.2.2 rfl

/-! Round-trip lemmas for the WAL line format. -/

theorem dropStart_pre : ∀ (p r : List Char), dropStart p (p ++ r) = some r := by
  intro p
  induction p with
  | nil => intro r; rfl
  | cons c cs ih =>
    intro r
    simp only [List.cons_append, dropStart, List.append_eq]
    rw [if_pos trivial]
    exact ih r

theorem dropStart_self (p : List Char) : dropStart p p = some [] := by
  have := dropStart_pre p []
  rwa [List.append_nil] at this

theorem dropStart_cons (c : Char) (r : List Char) : dropStart [c] (c :: r) = some r := by
  simp only [dropStart]
  rw [if_pos trivial]

theorem dropStart_pre_cons : ∀ (p : List Char) (c : Char) (r : List Char),
    dropStart (p ++ [c]) (p ++ (c :: r)) = some r := by
  intro p
  induction p with
  | nil => intro c r; exact dropStart_cons c r
  | cons a as ih =>
    intro c r
    simp only [List.cons_append, dropStart, List.append_eq]
    rw [if_pos trivial]
    exact ih c r

theorem takeUntil_pre {c : Char} : ∀ {pre : List Char} (r : List Char), c ∉ pre →
    takeUntil c (pre ++ c :: r) = some (pre, r) := by
  intro pre
  induction pre with
  | nil =>
    intro r _
    simp only [List.nil_append, takeUntil]
    rw [if_pos trivial]
  | cons a as ih =>
    intro r h
    simp only [List.cons_append, takeUntil, List.append_eq]
    rw [if_neg (fun hac => h (List.mem_cons.mpr (Or.inl hac.symm))),
      ih r (fun hm => h (List.mem_cons_of_mem a hm))]
    rfl

theorem charVal_digitChar_isSome (d : Nat) : (charVal (digitChar d)).isSome := by
  unfold digitChar
  split <;> decide

theorem charVal_digitChar (d : Nat) (h : d < 10) : charVal (digitChar d) = some d := by
  interval_cases d <;> rfl

theorem natCharsAux_fuel : ∀ (f1 : Nat), ∀ {f2 n : Nat}, n < f1 → n < f2 →
    natCharsAux f1 n = natCharsAux f2 n := by
  intro f1
  induction f1 with
  | zero => intro f2 n h1 _; omega
  | succ f1 ih =>
    intro f2 n h1 h2
    cases f2 with
    | zero => omega
    | succ f2 =>
      simp only [natCharsAux]
      by_cases hn : n < 10
      · rw [if_pos hn, if_pos hn]
      · have hd : n / 10 < n := Nat.div_lt_self (by omega) (by omega)
        rw [if_neg hn, if_neg hn, @ih f2 (n / 10) (by omega) (by omega)]

theorem natChars_lt {n : Nat} (h : n < 10) : natChars n = [digitChar n] := by
  unfold natChars
  simp only [natCharsAux]
  rw [if_pos h]

theorem natChars_ge {n : Nat} (h : 10 ≤ n) :
    natChars n = natChars (n / 10) ++ [digitChar (n % 10)] := by
  have hd : n / 10 < n := Nat.div_lt_self (by omega) (by omega)
  have h1 : natChars n = natCharsAux n (n / 10) ++ [digitChar (n % 10)] := by
    unfold natChars
    simp only [natCharsAux]
    rw [if_neg (by omega)]
  rw [h1, @natCharsAux_fuel n (n / 10 + 1) (n / 10) (by omega) (by omega)]
  rfl

theorem natChars_digits (n : Nat) : ∀ c ∈ natChars n, (charVal c).isSome := by
  induction n using Nat.strong_induction_on with
  | _ n ih =>
    by_cases hn : n < 10
    · rw [natChars_lt hn]
      intro c hc
      rw [List.mem_singleton] at hc
      subst hc
      exact charVal_digitChar_isSome n
    · rw [natChars_ge (by omega)]
      intro c hc
      rcases List.mem_append.mp hc with hc | hc
      · exact ih (n / 10) (Nat.div_lt_self (by omega) (by omega)) c hc
      · rw [List.mem_singleton] at hc
        subst hc
        exact charVal_digitChar_isSome (n % 10)

theorem natChars_ne_nil (n : Nat) : natChars n ≠ [] := by
  by_cases hn : n < 10
  · rw [natChars_lt hn]
    simp
  · rw [natChars_ge (by omega)]
    simp

theorem charsValAux_append : ∀ (xs ys : List Char) (acc : Nat),
    charsValAux acc (xs ++ ys)
      = (charsValAux acc xs).bind fun a => charsValAux a ys := by
  intro xs
  induction xs with
  | nil => intro ys acc; rfl
  | cons c cs ih =>
    intro ys acc
    simp only [List.cons_append, charsValAux]
    cases charVal c with
    | none => rfl
    | some v => exact ih ys (acc * 10 + v)

theorem charsValAux_natChars (n : Nat) : ∀ (acc : Nat),
    charsValAux acc (natChars n) = some (acc * 10 ^ (natChars n).length + n) := by
  induction n using Nat.strong_induction_on with
  | _ n ih =>
    intro acc
    by_cases hn : n < 10
    · rw [natChars_lt hn]
      simp only [charsValAux]
      rw [charVal_digitChar n hn]
      simp
    · rw [natChars_ge (by omega), charsValAux_append]
      rw [ih (n / 10) (Nat.div_lt_self (by omega) (by omega)) acc]
      simp only [Option.some_bind, charsValAux]
      rw [charVal_digitChar (n % 10) (by omega)]
      simp only [charsValAux]
      rw [List.length_append, List.length_singleton, pow_succ]
      congr 1
      have h10 : n / 10 * 10 + n % 10 = n := by omega
      calc (acc * 10 ^ (natChars (n / 10)).length + n / 10) * 10 + n % 10
          = acc * (10 ^ (natChars (n / 10)).length * 10)
              + (n / 10 * 10 + n % 10) := by ring
        _ = acc * (10 ^ (natChars (n / 10)).length * 10) + n := by rw [h10]

theorem splitDigits_append : ∀ (ds r : List Char),
    (∀ c ∈ ds, (charVal c).isSome) → NotDigitHead r →
    splitDigits (ds ++ r) = (ds, r) := by
  intro ds
  induction ds with
  | nil =>
    intro r _ hr
    cases r with
    | nil => rfl
    | cons c rest =>
      have hc : charVal c = none := hr
      simp only [List.nil_append, splitDigits, hc]
      simp
  | cons c cs ih =>
    intro r hds hr
    simp only [List.cons_append, splitDigits, hds c (List.mem_cons_self c cs),
      List.append_eq]
    rw [if_pos trivial, ih r (fun x hx => hds x (List.mem_cons_of_mem c hx)) hr]

theorem splitNat_natChars (n : Nat) (r : List Char) (hr : NotDigitHead r) :
    splitNat (natChars n ++ r) = some (n, r) := by
  unfold splitNat
  rw [splitDigits_append (natChars n) r (natChars_digits n) hr]
  show (if (natChars n).isEmpty then none
    else match charsValAux 0 (natChars n) with
      | none => none
      | some m => some (m, r)) = some (n, r)
  rw [if_neg (by simpa [List.isEmpty_iff] using natChars_ne_nil n),
    charsValAux_natChars n 0]
  simp

theorem charVal_isSome_ne {c : Char} (h : (charVal c).isSome) :
    c ≠ '-' ∧ c ≠ qc ∧ c ≠ 'n' := by
  refine ⟨?_, ?_, ?_⟩ <;> intro he <;> rw [he] at h <;> exact absurd h (by decide)

theorem splitInt_intChars (i : Int) (r : List Char) (hr : NotDigitHead r) :
    splitInt (intChars i ++ r) = some (i, r) := by
  unfold intChars
  by_cases hi : i < 0
  · rw [if_pos hi]
    simp only [List.cons_append, splitInt]
    rw [if_pos trivial, splitNat_natChars _ _ hr]
    have hna : -((i.natAbs : Int)) = i := by omega
    have hm : Option.map (fun p : Nat × List Char => (-(p.1 : Int), p.2))
        (some (i.natAbs, r)) = some (-(i.natAbs : Int), r) := rfl
    rw [hm, hna]
  · rw [if_neg hi]
    obtain ⟨c, cs, hnc⟩ : ∃ c cs, natChars i.toNat = c :: cs := by
      cases h : natChars i.toNat with
      | nil => exact absurd h (natChars_ne_nil _)
      | cons c cs => exact ⟨c, cs, rfl⟩
    have hcd : (charVal c).isSome :=
      natChars_digits _ c (by rw [hnc]; exact List.mem_cons_self c cs)
    rw [hnc]
    simp only [List.cons_append, splitInt]
    rw [if_neg (charVal_isSome_ne hcd).1,
      show (c :: (cs ++ r) : List Char) = (c :: cs) ++ r from rfl, ← hnc,
      splitNat_natChars _ _ hr]
    have hpos : ((i.toNat : Int)) = i := by omega
    simp [hpos]

theorem parseAction_actionStr (a : ActionType) :
    parseAction ((actionStr a).toList) = some a := by
  cases a <;> rfl

theorem qc_not_actionStr (a : ActionType) : qc ∉ (actionStr a).toList := by
  cases a <;> decide

theorem parseId_encodeId (id : FeatId) (r : List Char) (hid : IdOk id)
    (hr : NotDigitHead r) : parseId (encodeIdCh id ++ r) = some (id, r) := by
  cases id with
  | str s =>
    obtain ⟨hq, -⟩ : qc ∉ s.toList ∧ '\n' ∉ s.toList := hid
    simp only [encodeIdCh, List.append_assoc, List.singleton_append, List.cons_append]
    simp only [parseId, List.nil_append]
    rw [if_pos trivial, takeUntil_pre r hq]
    rfl
  | num n =>
    have hr2 := splitInt_intChars n r hr
    obtain ⟨c, t, hshape, hne1, hne2⟩ :
        ∃ c t, intChars n ++ r = c :: t ∧ c ≠ qc ∧ c ≠ 'n' := by
      unfold intChars
      by_cases hn : (n : Int) < 0
      · rw [if_pos hn]
        exact ⟨'-', natChars n.natAbs ++ r, by simp, by decide, by decide⟩
      · rw [if_neg hn]
        obtain ⟨c, cs, hnc⟩ : ∃ c cs, natChars n.toNat = c :: cs := by
          cases h : natChars n.toNat with
          | nil => exact absurd h (natChars_ne_nil _)
          | cons c cs => exact ⟨c, cs, rfl⟩
        have hcd : (charVal c).isSome :=
          natChars_digits _ c (by rw [hnc]; exact List.mem_cons_self c cs)
        exact ⟨c, cs ++ r, by rw [hnc]; simp,
          (charVal_isSome_ne hcd).2.1, (charVal_isSome_ne hcd).2.2⟩
    rw [show encodeIdCh (FeatId.num n) = intChars n from rfl, hshape]
    simp only [parseId]
    rw [if_neg hne1, if_neg hne2, ← hshape, hr2]
    rfl
  | missing =>
    simp only [encodeIdCh, List.cons_append]
    simp only [parseId, List.nil_append]
    rw [if_neg (by decide), if_pos trivial,
      show ('u' :: 'l' :: 'l' :: r : List Char) = ['u', 'l', 'l'] ++ r from rfl,
      dropStart_pre]
    rfl

theorem encodeTxCh_assoc (tx : Transaction) :
    encodeTxCh tx = pad1 ++ ((actionStr tx.action).toList ++ (qc :: (pad2
      ++ (qc :: (tx.name.toList ++ (qc :: (pad3 ++ (natChars tx.lsn
      ++ (pad4 ++ (encodeIdCh tx.feature.id ++ (pad5
      ++ (intChars tx.feature.minX ++ (cc :: (intChars tx.feature.minY
      ++ (cc :: (intChars tx.feature.maxX ++ (cc :: (intChars tx.feature.maxY
      ++ padEnd)))))))))))))))))) := by
  unfold encodeTxCh
  simp [List.append_assoc]

theorem decodeMeta_enc (a : ActionType) (nm : String) (lsn : Nat) (r : List Char)
    (hnm : qc ∉ nm.toList) (hr : NotDigitHead r) :
    decodeMeta (pad1 ++ ((actionStr a).toList ++ (qc :: (pad2 ++ (qc :: (nm.toList
      ++ (qc :: (pad3 ++ (natChars lsn ++ r))))))))) = some ((a, nm, lsn), r) := by
  unfold decodeMeta
  rw [dropStart_pre]
  simp only [Option.bind_eq_bind, Option.some_bind]
  rw [takeUntil_pre _ (qc_not_actionStr a)]
  simp only [Option.some_bind]
  rw [parseAction_actionStr]
  simp only [Option.some_bind]
  rw [dropStart_pre_cons]
  simp only [Option.some_bind]
  rw [takeUntil_pre _ hnm]
  simp only [Option.some_bind]
  rw [dropStart_pre]
  simp only [Option.some_bind]
  rw [splitNat_natChars lsn r hr]
  simp only [Option.some_bind]
  rfl

theorem decodeBox_enc (x1 y1 x2 y2 : Int) (r : List Char) (hr : NotDigitHead r) :
    decodeBox (pad5 ++ (intChars x1 ++ (cc :: (intChars y1 ++ (cc :: (intChars x2
      ++ (cc :: (intChars y2 ++ r)))))))) = some ((x1, y1, x2, y2), r) := by
  unfold decodeBox
  rw [dropStart_pre]
  simp only [Option.bind_eq_bind, Option.some_bind]
  rw [splitInt_intChars x1 _ (by rfl)]
  simp only [Option.some_bind]
  rw [dropStart_cons]
  simp only [Option.some_bind]
  rw [splitInt_intChars y1 _ (by rfl)]
  simp only [Option.some_bind]
  rw [dropStart_cons]
  simp only [Option.some_bind]
  rw [splitInt_intChars x2 _ (by rfl)]
  simp only [Option.some_bind]
  rw [dropStart_cons]
  simp only [Option.some_bind]
  rw [splitInt_intChars y2 _ hr]
  simp only [Option.some_bind]

theorem decodeTx_encodeTx (tx : Transaction) (h : WellFormedTx tx) :
    decodeTx (encodeTx tx) = some tx := by
  obtain ⟨hnm, -, hid⟩ := h
  show decodeTxCh (String.mk (encodeTxCh tx)).toList = some tx
  rw [show (String.mk (encodeTxCh tx)).toList = encodeTxCh tx from rfl,
    encodeTxCh_assoc]
  unfold decodeTxCh
  rw [decodeMeta_enc tx.action tx.name tx.lsn _ hnm (by rfl)]
  simp only [Option.bind_eq_bind, Option.some_bind]
  rw [dropStart_pre]
  simp only [Option.some_bind]
  rw [parseId_encodeId tx.feature.id _ hid (by rfl)]
  simp only [Option.some_bind]
  rw [decodeBox_enc _ _ _ _ _ (by rfl)]
  simp only [Option.some_bind]
  rw [dropStart_self]
  simp only [Option.some_bind]
  rfl

/-- C7: appending one well-formed transaction to an empty WAL succeeds,
and loading the WAL afterwards yields exactly that one transaction, with
its action, origin name, LSN and feature payload preserved. -/
theorem C7_wal_roundtrip (tx : Transaction) (h : WellFormedTx tx) :
    (saveTransactionToWAL true (some []) tx).2 = false ∧
      loadWAL (saveTransactionToWAL true (some []) tx).1 = [tx] := by
  refine ⟨rfl, ?_⟩
  simp [loadWAL, saveTransactionToWAL, decodeTx_encodeTx tx h]

theorem C7_wal_roundtrip_witness :
    (saveTransactionToWAL true (some []) c7tx).2 = false ∧
      loadWAL (saveTransactionToWAL true (some []) c7tx).1 = [c7tx] :=
  C7_wal_roundtrip c7tx (by decide)

end Practice3
